import Mathlib

/-!
# Verification of the qlib backtest simulation loop

Shallow embedding of `src/qlib/backtest/backtest.py` (`collect_data_loop`,
`backtest_loop`) together with the external collaborator contracts the spec
describes (executor, strategy, `Freq.parse`), which are not part of the
repository snapshot and are therefore modelled from the spec.

Trade decisions and execution results are opaque values; we model both as
natural numbers.  A run of `collect_data_loop` is embedded as a function that
produces the event trace of collaborator calls, the list of decisions yielded
through the generator, and the captured aggregation output (when a capture
dict was supplied), or a `BacktestError` on failure.
-/

namespace QlibBacktest

/-- Trade decisions are opaque values produced by the strategy. -/
abbrev Decision := Nat

/-- Execution results are opaque values produced by the executor. -/
abbrev ExecResult := Nat

/-- Errors a run can raise.  `configurationError` corresponds to the spec's
ConfigurationError (end before start); `freqParseError` models the failure
of `Freq.parse` on an unsupported granularity label. -/
inductive BacktestError where
  | configurationError
  | freqParseError
deriving DecidableEq, Repr

/- ## Frequency labels (`Freq.parse` and the frequency key)

`Freq` lives in `qlib/utils/time.py`, which is not part of the source
snapshot, so the parser is modelled from the spec. -/

/-- Modelled from the spec: the supported granularity units of `Freq`
("min", "day", ...) used in granularity labels such as "1day", "5min". -/
def supportedFreqUnits : List String := ["min", "day", "week", "month"]

/-- Decimal value of a digit string, most significant digit first. -/
def digitsToNat (cs : List Char) : Nat :=
  cs.foldl (fun n c => n * 10 + (c.toNat - 48)) 0

/-- Decimal digit string of a natural number (canonical: no leading zeros). -/
def natDigits (n : Nat) : List Char :=
  if n < 10 then [Nat.digitChar n]
  else natDigits (n / 10) ++ [Nat.digitChar (n % 10)]
termination_by n
decreasing_by exact Nat.div_lt_self (by omega) (by omega)

namespace Freq

/-- Modelled from the spec: `Freq.parse` splits a granularity label into its
(multiplier, unit) pair, e.g. "1day" ↦ (1, "day"), "5min" ↦ (5, "min");
labels whose unit is unsupported do not parse. -/
def parse (label : String) : Option (Nat × String) :=
  let ds := label.data.takeWhile Char.isDigit
  let rest := label.data.dropWhile Char.isDigit
  if ds.isEmpty then none
  else if supportedFreqUnits.contains (String.mk rest) then
    some (digitsToNat ds, String.mk rest)
  else none

end Freq

/-- `"{}{}".format(count, unit)`: concatenate multiplier and unit. -/
def formatFreq (n : Nat) (u : String) : String :=
  String.mk (natDigits n ++ u.data)

/-- The frequency key of a granularity label:
`"{}{}".format(*Freq.parse(label))` (from `backtest.py`, aggregation part). -/
def freqKey (label : String) : Option String :=
  (Freq.parse label).map fun p => formatFreq p.1 p.2

/- ## Executor tree nodes and trade accounts (external data, per the spec) -/

/-- A trade indicator object; `df` models the dataframe
`generate_trade_indicators_dataframe()` derives from it. -/
structure Indicator where
  df : Nat
  tag : Nat
deriving DecidableEq, Repr

/-- The account owned by an executor node: optional portfolio metrics and
always-produced trade indicators. -/
structure TradeAccount where
  portMetrEnabled : Bool
  portfolioMetrics : Nat
  tradeIndicator : Indicator
deriving DecidableEq, Repr

/-- One executor node as seen by the aggregation walk
(`get_all_executors()`): a granularity label and an account. -/
structure ExecNode where
  timePerStep : String
  account : TradeAccount
deriving DecidableEq, Repr

/-- A Python dict keyed by frequency key, modelled by its lookup function
(`d.get(k)`): `none` when the key is absent. -/
def StrMap (α : Type) : Type := String → Option α

/-- The empty dict `{}`. -/
def mapEmpty {α : Type} : StrMap α := fun _ => none

/-- Python-dict assignment `d[k] = v`: a later assignment to the same key
overwrites the earlier one (last write wins). -/
def mapSet {α : Type} (d : StrMap α) (k : String) (v : α) : StrMap α :=
  fun q => if q = k then some v else d q

/-- `portfolio_dict`: frequency key ↦ portfolio metrics. -/
abbrev PortMap := StrMap Nat

/-- `indicator_dict`: frequency key ↦ (indicator dataframe, indicator). -/
abbrev IndMap := StrMap (Nat × Indicator)

/-- The aggregation walk of `collect_data_loop` (lines 123–130): for every
executor node compute its frequency key, store portfolio metrics when
enabled, always store the trade indicator pair. -/
def aggGo : List ExecNode → PortMap → IndMap →
    Except BacktestError (PortMap × IndMap)
  | [], pm, im => Except.ok (pm, im)
  | node :: rest, pm, im =>
    match freqKey node.timePerStep with
    | none => Except.error BacktestError.freqParseError
    | some key =>
      let pm' := if node.account.portMetrEnabled then
          mapSet pm key node.account.portfolioMetrics
        else pm
      let im' := mapSet im key
          (node.account.tradeIndicator.df, node.account.tradeIndicator)
      aggGo rest pm' im'

/-- Aggregate metrics over all executors (root plus descendants). -/
def aggregate (nodes : List ExecNode) : Except BacktestError (PortMap × IndMap) :=
  aggGo nodes mapEmpty mapEmpty

/- ## Executor and strategy behaviour parameters -/

/-- The deterministic behaviour of the outer executor, as the spec's
capability set describes it (external to the snapshot).  `stepYields i` is
the list of intermediate decisions `collect_data` yields during outer step
`i`; `stepResult i d ovs` is its final per-step result given the submitted
decision `d` and the override responses `ovs` the driver supplied at each
suspension point (one per yield, `none` = no override). -/
structure ExecutorSpec where
  tradeLen : Nat
  levelInfra : Nat
  stepYields : Nat → List Decision
  stepResult : Nat → Decision → List (Option Decision) → Option ExecResult
  nodes : List ExecNode

/-- Running state of the outer executor: the calendar position advances by
one at each `collect_data` call; `finished()` holds once the calendar is
exhausted (the executor contract stated in the spec). -/
structure ExecState where
  spec : ExecutorSpec
  len : Nat
  pos : Nat
  resetDone : Bool

/-- `trade_executor.finished()`: the outer calendar is exhausted. -/
def ExecState.finished (ex : ExecState) : Bool :=
  decide (ex.len ≤ ex.pos)

/-- The deterministic behaviour of the outer strategy:
`generate_trade_decision` as a function of the outer step index and the
previous step's execution result (`None` on the first step). -/
structure StrategySpec where
  genDec : Nat → Option ExecResult → Decision

/- ## Event traces -/

/-- The observable events of a run: the collaborator calls
`collect_data_loop` makes, in order. -/
inductive Event where
  /-- `trade_executor.reset(start_time, end_time)` -/
  | resetExec (startT endT : Int)
  /-- `trade_strategy.reset(level_infra=...)`; `execWasReset` records whether
  the executor the handle was obtained from had already been reset. -/
  | resetStrat (execWasReset : Bool) (infra : Nat)
  /-- a `trade_executor.finished()` check, and its answer -/
  | checkFin (b : Bool)
  /-- `trade_strategy.generate_trade_decision(prev)` -/
  | genDecision (prev : Option ExecResult)
  /-- an intermediate decision yielded through the generator -/
  | yieldD (d : Decision)
  /-- `trade_strategy.post_exe_step(result)` -/
  | postExeStep (r : Option ExecResult)
  /-- `trade_strategy.post_upper_level_exe_step()` -/
  | postUpper
  /-- `trade_executor.get_all_executors()` -/
  | getAllExecs
deriving DecidableEq, Repr

/- ## The simulation loop -/

/-- The `while not trade_executor.finished()` loop of `collect_data_loop`
(lines 102–113): check `finished`, request a decision passing the previous
result, submit it via `collect_data` (yielding every intermediate decision
and consuming the driver's override responses), deliver the final per-step
result to `post_exe_step`, repeat.  Returns the event trace of the loop and
the decisions yielded.  `yc` counts yields made so far (it indexes the
driver's responses). -/
def runLoop (strat : StrategySpec) (driver : Nat → Option Decision)
    (ex : ExecState) (prev : Option ExecResult) (yc : Nat) :
    List Event × List Decision :=
  if ex.finished then ([Event.checkFin true], [])
  else
    let d := strat.genDec ex.pos prev
    let ys := ex.spec.stepYields ex.pos
    let ovs := (List.range ys.length).map fun j => driver (yc + j)
    let res := ex.spec.stepResult ex.pos d ovs
    let rest := runLoop strat driver { ex with pos := ex.pos + 1 } res
      (yc + ys.length)
    (Event.checkFin false :: Event.genDecision prev ::
        (ys.map Event.yieldD ++ Event.postExeStep res :: rest.1),
      ys ++ rest.2)
termination_by ex.len - ex.pos
decreasing_by simp only [ExecState.finished, decide_eq_true_eq] at *; omega

/-- The executor state immediately after `reset(start_time, end_time)`:
calendar rebuilt (cursor at 0, `get_trade_len()` fixed), reset flag set. -/
def initState (espec : ExecutorSpec) : ExecState :=
  { spec := espec, len := espec.tradeLen, pos := 0, resetDone := true }

/-- `collect_data_loop(start_time, end_time, trade_strategy, trade_executor,
return_value)`: reset the executor with `[start, end]` (modelled from the
spec to raise ConfigurationError when `end` precedes `start`, since the
executor's reset is external to the snapshot), reset the strategy with the
level-infrastructure handle of the just-reset executor, run the stepping
loop, fire `post_upper_level_exe_step`, and aggregate metrics into the
capture dict when one was supplied (`returnValue = some ()`).  Returns the
event trace, the yielded decisions, and the captured
`(portfolio_dict, indicator_dict)` pair. -/
def collect_data_loop (startT endT : Int) (strat : StrategySpec)
    (espec : ExecutorSpec) (driver : Nat → Option Decision)
    (returnValue : Option Unit) :
    Except BacktestError (List Event × List Decision × Option (PortMap × IndMap)) :=
  if endT < startT then Except.error BacktestError.configurationError
  else
    let ex := initState espec
    let infra := ex.spec.levelInfra
    let lp := runLoop strat driver ex none 0
    let tr := Event.resetExec startT endT ::
      Event.resetStrat ex.resetDone infra :: (lp.1 ++ [Event.postUpper])
    match returnValue with
    | none => Except.ok (tr, lp.2, none)
    | some _ =>
      match aggregate espec.nodes with
      | Except.error e => Except.error e
      | Except.ok (pm, im) =>
        Except.ok (tr ++ [Event.getAllExecs], lp.2, some (pm, im))

/-- `backtest_loop(start_time, end_time, trade_strategy, trade_executor)`:
drive `collect_data_loop` with a fresh capture dict, resuming every
suspension with no override and discarding the yielded decisions, then read
`"portfolio_dict"` and `"indicator_dict"` out of the capture dict
(`dict.get`: `none` when the key is absent). -/
def backtest_loop (startT endT : Int) (strat : StrategySpec)
    (espec : ExecutorSpec) :
    Except BacktestError (Option PortMap × Option IndMap) :=
  match collect_data_loop startT endT strat espec (fun _ => none) (some ()) with
  | Except.error e => Except.error e
  | Except.ok (_, _, cap) =>
    Except.ok (cap.map Prod.fst, cap.map Prod.snd)

/-- The spec's description of unattended driving: drive the resumable
sequence `collect_data_loop` externally, injecting no replacement decision
at any suspension point, ignore the intermediate yielded decisions, and
read the aggregation output from the capture dict supplied to the run. -/
def unattendedDrive (startT endT : Int) (strat : StrategySpec)
    (espec : ExecutorSpec) :
    Except BacktestError (Option PortMap × Option IndMap) :=
  let noOverride : Nat → Option Decision := fun _ => none
  match collect_data_loop startT endT strat espec noOverride (some ()) with
  | Except.error e => Except.error e
  | Except.ok (_tr, _yields, cap) =>
    Except.ok (cap.map Prod.fst, cap.map Prod.snd)

/- ## Trace predicates -/

/-- Is this event a decision request? -/
def isGen : Event → Bool
  | Event.genDecision _ => true
  | _ => false

/-- Is this event a `post_exe_step` delivery? -/
def isPost : Event → Bool
  | Event.postExeStep _ => true
  | _ => false

/-- Is this event a `finished()` check that answered `true`? -/
def isFinTrue : Event → Bool
  | Event.checkFin true => true
  | _ => false

/-- Is this event the `post_upper_level_exe_step` hook? -/
def isUpper : Event → Bool
  | Event.postUpper => true
  | _ => false

/-- Is this event a `get_all_executors()` call? -/
def isGetAll : Event → Bool
  | Event.getAllExecs => true
  | _ => false

/-- Events that can occur inside the stepping loop. -/
def isLoopEvent : Event → Bool
  | Event.checkFin _ => true
  | Event.genDecision _ => true
  | Event.yieldD _ => true
  | Event.postExeStep _ => true
  | _ => false

/-- Every decision request is immediately preceded by a `finished()` check
that answered `false` (the argument tracks the preceding event). -/
def genPrecededBy : Option Event → List Event → Bool
  | _, [] => true
  | prev, e :: rest =>
    ((!isGen e) || decide (prev = some (Event.checkFin false))) &&
      genPrecededBy (some e) rest

/-- No decision is ever requested after a `finished()` check answers
`true`. -/
def noGenAfterFin : List Event → Bool
  | [] => true
  | Event.checkFin true :: rest => rest.all fun e => !isGen e
  | _ :: rest => noGenAfterFin rest

/-- Every `finished()` check answering `false` is immediately followed by a
decision request (the loop continues exactly when not finished). -/
def finFalseThenGen : List Event → Bool
  | [] => true
  | Event.checkFin false :: rest =>
    (match rest with
     | Event.genDecision _ :: _ => true
     | _ => false) && finFalseThenGen rest
  | _ :: rest => finFalseThenGen rest

/-- Strict alternation of decision requests and result deliveries: the given
list (a trace filtered to those two event kinds) is
`gen p₀, post r₀, gen p₁, post r₁, ...` where `p₀` is the given previous
result and each later request receives exactly the result just
delivered. -/
def strictAlt : Option ExecResult → List Event → Bool
  | _, [] => true
  | prev, Event.genDecision p :: Event.postExeStep r :: rest =>
    decide (p = prev) && strictAlt r rest
  | _, _ => false

/-- After the (first) `post_upper_level_exe_step`, no decision request and
no `post_exe_step` delivery occurs. -/
def noStepAfterUpper : List Event → Bool
  | [] => true
  | Event.postUpper :: rest => rest.all fun e => !isGen e && !isPost e
  | _ :: rest => noStepAfterUpper rest

/- ## Lemmas about the stepping loop -/

lemma runLoop_mem_isLoopEvent (strat : StrategySpec)
    (driver : Nat → Option Decision) :
    ∀ (n : Nat) (ex : ExecState) (prev : Option ExecResult) (yc : Nat),
    ex.len - ex.pos = n →
    ∀ e ∈ (runLoop strat driver ex prev yc).1, isLoopEvent e = true := by
  intro n
  induction n using Nat.strong_induction_on with
  | _ n ih =>
    intro ex prev yc hn e he
    rw [runLoop] at he
    split at he
    · simp only [List.mem_singleton] at he
      subst he; rfl
    · rename_i hfin
      simp only [ExecState.finished, decide_eq_true_eq, Nat.not_le] at hfin
      simp only [List.mem_cons, List.mem_append, List.mem_map] at he
      rcases he with h | h | ⟨d, _, h⟩ | h
      · subst h; rfl
      · subst h; rfl
      · subst h; rfl
      · rcases h with h' | h'
        · subst h'; rfl
        · exact ih (ex.len - (ex.pos + 1)) (by omega)
            { ex with pos := ex.pos + 1 } _ _ rfl e h'

lemma countP_eq_zero_of_isLoopEvent (strat : StrategySpec)
    (driver : Nat → Option Decision) (ex : ExecState) (prev : Option ExecResult)
    (yc : Nat) (p : Event → Bool)
    (hp : ∀ e, isLoopEvent e = true → p e = false) :
    ((runLoop strat driver ex prev yc).1).countP p = 0 := by
  rw [List.countP_eq_zero]
  intro e he
  simp only [Bool.not_eq_true]
  exact hp e (runLoop_mem_isLoopEvent strat driver _ ex prev yc rfl e he)

lemma runLoop_countGen (strat : StrategySpec) (driver : Nat → Option Decision) :
    ∀ (n : Nat) (ex : ExecState) (prev : Option ExecResult) (yc : Nat),
    ex.len - ex.pos = n →
    ((runLoop strat driver ex prev yc).1).countP isGen = ex.len - ex.pos := by
  intro n
  induction n using Nat.strong_induction_on with
  | _ n ih =>
    intro ex prev yc hn
    rw [runLoop]
    split
    · rename_i hfin
      simp only [ExecState.finished, decide_eq_true_eq] at hfin
      simp [isGen]
      omega
    · rename_i hfin
      simp only [ExecState.finished, decide_eq_true_eq, Nat.not_le] at hfin
      have hrec := ih (ex.len - (ex.pos + 1)) (by omega)
        { ex with pos := ex.pos + 1 }
        (ex.spec.stepResult ex.pos (strat.genDec ex.pos prev)
          ((List.range (ex.spec.stepYields ex.pos).length).map fun j =>
            driver (yc + j)))
        (yc + (ex.spec.stepYields ex.pos).length) rfl
      have hy : ((ex.spec.stepYields ex.pos).map Event.yieldD).countP isGen = 0 := by
        rw [List.countP_eq_zero]
        intro e he
        simp only [List.mem_map] at he
        obtain ⟨d, _, rfl⟩ := he
        simp [isGen]
      simp only [List.countP_cons, List.countP_append, hy, hrec, isGen]
      simp
      omega

lemma runLoop_countPost (strat : StrategySpec) (driver : Nat → Option Decision) :
    ∀ (n : Nat) (ex : ExecState) (prev : Option ExecResult) (yc : Nat),
    ex.len - ex.pos = n →
    ((runLoop strat driver ex prev yc).1).countP isPost = ex.len - ex.pos := by
  intro n
  induction n using Nat.strong_induction_on with
  | _ n ih =>
    intro ex prev yc hn
    rw [runLoop]
    split
    · rename_i hfin
      simp only [ExecState.finished, decide_eq_true_eq] at hfin
      simp [isPost]
      omega
    · rename_i hfin
      simp only [ExecState.finished, decide_eq_true_eq, Nat.not_le] at hfin
      have hrec := ih (ex.len - (ex.pos + 1)) (by omega)
        { ex with pos := ex.pos + 1 }
        (ex.spec.stepResult ex.pos (strat.genDec ex.pos prev)
          ((List.range (ex.spec.stepYields ex.pos).length).map fun j =>
            driver (yc + j)))
        (yc + (ex.spec.stepYields ex.pos).length) rfl
      have hy : ((ex.spec.stepYields ex.pos).map Event.yieldD).countP isPost = 0 := by
        rw [List.countP_eq_zero]
        intro e he
        simp only [List.mem_map] at he
        obtain ⟨d, _, rfl⟩ := he
        simp [isPost]
      simp only [List.countP_cons, List.countP_append, hy, hrec, isPost]
      simp
      omega

lemma runLoop_countFinTrue (strat : StrategySpec)
    (driver : Nat → Option Decision) :
    ∀ (n : Nat) (ex : ExecState) (prev : Option ExecResult) (yc : Nat),
    ex.len - ex.pos = n →
    ((runLoop strat driver ex prev yc).1).countP isFinTrue = 1 := by
  intro n
  induction n using Nat.strong_induction_on with
  | _ n ih =>
    intro ex prev yc hn
    rw [runLoop]
    split
    · simp [isFinTrue]
    · rename_i hfin
      simp only [ExecState.finished, decide_eq_true_eq, Nat.not_le] at hfin
      have hrec := ih (ex.len - (ex.pos + 1)) (by omega)
        { ex with pos := ex.pos + 1 }
        (ex.spec.stepResult ex.pos (strat.genDec ex.pos prev)
          ((List.range (ex.spec.stepYields ex.pos).length).map fun j =>
            driver (yc + j)))
        (yc + (ex.spec.stepYields ex.pos).length) rfl
      have hy : ((ex.spec.stepYields ex.pos).map Event.yieldD).countP isFinTrue = 0 := by
        rw [List.countP_eq_zero]
        intro e he
        simp only [List.mem_map] at he
        obtain ⟨d, _, rfl⟩ := he
        simp [isFinTrue]
      simp only [List.countP_cons, List.countP_append, hy, hrec, isFinTrue]
      simp

lemma genPrecededBy_no_gens :
    ∀ (l : List Event) (q : Option Event), (∀ e ∈ l, isGen e = false) →
    genPrecededBy q l = true := by
  intro l
  induction l with
  | nil => intro q _; rfl
  | cons e rest ih =>
    intro q h
    simp only [genPrecededBy, Bool.and_eq_true, Bool.or_eq_true, Bool.not_eq_true']
    exact ⟨Or.inl (h e (List.mem_cons_self e rest)),
      ih (some e) fun x hx => h x (List.mem_cons_of_mem e hx)⟩

lemma genPrecededBy_yields (ys : List Decision) :
    ∀ (q : Option Event) (r : Option ExecResult) (tr : List Event),
    genPrecededBy q (ys.map Event.yieldD ++ Event.postExeStep r :: tr) =
      genPrecededBy (some (Event.postExeStep r)) tr := by
  induction ys with
  | nil =>
    intro q r tr
    simp [genPrecededBy, isGen]
  | cons y ys ih =>
    intro q r tr
    simp only [List.map_cons, List.cons_append, genPrecededBy, isGen,
      List.append_eq]
    rw [ih]
    simp

lemma runLoop_genPreceded (strat : StrategySpec)
    (driver : Nat → Option Decision) :
    ∀ (n : Nat) (ex : ExecState) (prev : Option ExecResult) (yc : Nat)
    (tail : List Event) (q : Option Event),
    ex.len - ex.pos = n → (∀ e ∈ tail, isGen e = false) →
    genPrecededBy q ((runLoop strat driver ex prev yc).1 ++ tail) = true := by
  intro n
  induction n using Nat.strong_induction_on with
  | _ n ih =>
    intro ex prev yc tail q hn htail
    rw [runLoop]
    split
    · simp only [List.cons_append, List.nil_append, genPrecededBy, isGen]
      simp only [Bool.not_false, Bool.true_or, Bool.true_and]
      exact genPrecededBy_no_gens tail _ htail
    · rename_i hfin
      simp only [ExecState.finished, decide_eq_true_eq, Nat.not_le] at hfin
      simp only [List.cons_append, List.append_assoc]
      simp only [genPrecededBy, isGen, Bool.not_false, Bool.true_or,
        Bool.true_and, Bool.not_true, Bool.false_or, decide_eq_true_eq]
      rw [genPrecededBy_yields]
      have := ih (ex.len - (ex.pos + 1)) (by omega)
        { ex with pos := ex.pos + 1 }
        (ex.spec.stepResult ex.pos (strat.genDec ex.pos prev)
          ((List.range (ex.spec.stepYields ex.pos).length).map fun j =>
            driver (yc + j)))
        (yc + (ex.spec.stepYields ex.pos).length) tail
        (some (Event.postExeStep
          (ex.spec.stepResult ex.pos (strat.genDec ex.pos prev)
            ((List.range (ex.spec.stepYields ex.pos).length).map fun j =>
              driver (yc + j))))) rfl htail
      simp_all

lemma noGenAfterFin_cons_not_fin (e : Event) (he : isFinTrue e = false)
    (l : List Event) : noGenAfterFin (e :: l) = noGenAfterFin l := by
  cases e with
  | checkFin b => cases b <;> simp_all [noGenAfterFin, isFinTrue]
  | resetExec s t => rfl
  | resetStrat w i => rfl
  | genDecision p => rfl
  | yieldD d => rfl
  | postExeStep r => rfl
  | postUpper => rfl
  | getAllExecs => rfl

lemma noGenAfterFin_append_no_fin :
    ∀ (l : List Event), (∀ e ∈ l, isFinTrue e = false) →
    ∀ (m : List Event), noGenAfterFin (l ++ m) = noGenAfterFin m := by
  intro l
  induction l with
  | nil => intro _ m; rfl
  | cons e rest ih =>
    intro h m
    rw [List.cons_append,
      noGenAfterFin_cons_not_fin e (h e (List.mem_cons_self e rest))]
    exact ih (fun x hx => h x (List.mem_cons_of_mem e hx)) m

lemma runLoop_noGenAfterFin (strat : StrategySpec)
    (driver : Nat → Option Decision) :
    ∀ (n : Nat) (ex : ExecState) (prev : Option ExecResult) (yc : Nat)
    (tail : List Event),
    ex.len - ex.pos = n → (∀ e ∈ tail, isGen e = false) →
    noGenAfterFin ((runLoop strat driver ex prev yc).1 ++ tail) = true := by
  intro n
  induction n using Nat.strong_induction_on with
  | _ n ih =>
    intro ex prev yc tail hn htail
    rw [runLoop]
    split
    · simp only [List.cons_append, List.nil_append, noGenAfterFin]
      rw [List.all_eq_true]
      intro e he
      simp [htail e he]
    · rename_i hfin
      simp only [ExecState.finished, decide_eq_true_eq, Nat.not_le] at hfin
      have hshape :
          (Event.checkFin false :: Event.genDecision prev ::
            ((ex.spec.stepYields ex.pos).map Event.yieldD ++
              Event.postExeStep
                  (ex.spec.stepResult ex.pos (strat.genDec ex.pos prev)
                    ((List.range (ex.spec.stepYields ex.pos).length).map
                      fun j => driver (yc + j))) ::
                (runLoop strat driver { ex with pos := ex.pos + 1 }
                  (ex.spec.stepResult ex.pos (strat.genDec ex.pos prev)
                    ((List.range (ex.spec.stepYields ex.pos).length).map
                      fun j => driver (yc + j)))
                  (yc + (ex.spec.stepYields ex.pos).length)).1)) ++ tail =
          (Event.checkFin false :: Event.genDecision prev ::
            ((ex.spec.stepYields ex.pos).map Event.yieldD ++
              [Event.postExeStep
                (ex.spec.stepResult ex.pos (strat.genDec ex.pos prev)
                  ((List.range (ex.spec.stepYields ex.pos).length).map
                    fun j => driver (yc + j)))])) ++
            ((runLoop strat driver { ex with pos := ex.pos + 1 }
              (ex.spec.stepResult ex.pos (strat.genDec ex.pos prev)
                ((List.range (ex.spec.stepYields ex.pos).length).map
                  fun j => driver (yc + j)))
              (yc + (ex.spec.stepYields ex.pos).length)).1 ++ tail) := by
        simp
      rw [hshape, noGenAfterFin_append_no_fin]
      · exact ih (ex.len - (ex.pos + 1)) (by omega)
          { ex with pos := ex.pos + 1 } _ _ tail rfl htail
      · intro e he
        simp only [List.mem_cons, List.mem_append, List.mem_map,
          List.mem_singleton, List.not_mem_nil, or_false] at he
        rcases he with rfl | rfl | ⟨d, _, rfl⟩ | rfl <;> rfl

lemma finFalseThenGen_cons_not_cff (e : Event)
    (he : e ≠ Event.checkFin false) (l : List Event) :
    finFalseThenGen (e :: l) = finFalseThenGen l := by
  cases e with
  | checkFin b =>
    cases b
    · exact absurd rfl he
    · rfl
  | resetExec s t => rfl
  | resetStrat w i => rfl
  | genDecision p => rfl
  | yieldD d => rfl
  | postExeStep r => rfl
  | postUpper => rfl
  | getAllExecs => rfl

lemma finFalseThenGen_no_cff :
    ∀ (l : List Event), (∀ e ∈ l, e ≠ Event.checkFin false) →
    finFalseThenGen l = true := by
  intro l
  induction l with
  | nil => intro _; rfl
  | cons e rest ih =>
    intro h
    rw [finFalseThenGen_cons_not_cff e (h e (List.mem_cons_self e rest))]
    exact ih fun x hx => h x (List.mem_cons_of_mem e hx)

lemma finFalseThenGen_append_no_cff :
    ∀ (l : List Event), (∀ e ∈ l, e ≠ Event.checkFin false) →
    ∀ (m : List Event), finFalseThenGen (l ++ m) = finFalseThenGen m := by
  intro l
  induction l with
  | nil => intro _ m; rfl
  | cons e rest ih =>
    intro h m
    rw [List.cons_append,
      finFalseThenGen_cons_not_cff e (h e (List.mem_cons_self e rest))]
    exact ih (fun x hx => h x (List.mem_cons_of_mem e hx)) m

lemma runLoop_finFalseThenGen (strat : StrategySpec)
    (driver : Nat → Option Decision) :
    ∀ (n : Nat) (ex : ExecState) (prev : Option ExecResult) (yc : Nat)
    (tail : List Event),
    ex.len - ex.pos = n → (∀ e ∈ tail, e ≠ Event.checkFin false) →
    finFalseThenGen ((runLoop strat driver ex prev yc).1 ++ tail) = true := by
  intro n
  induction n using Nat.strong_induction_on with
  | _ n ih =>
    intro ex prev yc tail hn htail
    rw [runLoop]
    split
    · simp only [List.cons_append, List.nil_append]
      rw [finFalseThenGen_cons_not_cff _ (by simp)]
      exact finFalseThenGen_no_cff tail htail
    · rename_i hfin
      simp only [ExecState.finished, decide_eq_true_eq, Nat.not_le] at hfin
      simp only [List.cons_append, finFalseThenGen, List.append_eq]
      have hmid :
          ((ex.spec.stepYields ex.pos).map Event.yieldD ++
            Event.postExeStep
                (ex.spec.stepResult ex.pos (strat.genDec ex.pos prev)
                  ((List.range (ex.spec.stepYields ex.pos).length).map
                    fun j => driver (yc + j))) ::
              (runLoop strat driver { ex with pos := ex.pos + 1 }
                (ex.spec.stepResult ex.pos (strat.genDec ex.pos prev)
                  ((List.range (ex.spec.stepYields ex.pos).length).map
                    fun j => driver (yc + j)))
                (yc + (ex.spec.stepYields ex.pos).length)).1) ++ tail =
          ((ex.spec.stepYields ex.pos).map Event.yieldD ++
            [Event.postExeStep
              (ex.spec.stepResult ex.pos (strat.genDec ex.pos prev)
                ((List.range (ex.spec.stepYields ex.pos).length).map
                  fun j => driver (yc + j)))]) ++
            ((runLoop strat driver { ex with pos := ex.pos + 1 }
              (ex.spec.stepResult ex.pos (strat.genDec ex.pos prev)
                ((List.range (ex.spec.stepYields ex.pos).length).map
                  fun j => driver (yc + j)))
              (yc + (ex.spec.stepYields ex.pos).length)).1 ++ tail) := by
        simp
      rw [hmid, finFalseThenGen_append_no_cff]
      · rw [ih (ex.len - (ex.pos + 1)) (by omega)
          { ex with pos := ex.pos + 1 } _ _ tail rfl htail]
        simp
      · intro e he
        simp only [List.mem_append, List.mem_map, List.mem_singleton,
          List.not_mem_nil, or_false, List.mem_cons] at he
        rcases he with ⟨d, _, rfl⟩ | rfl <;> simp

/-- Is this event a decision request or a result delivery? -/
def isGenOrPost (e : Event) : Bool := isGen e || isPost e

lemma filter_yields_eq_nil (ys : List Decision) :
    (ys.map Event.yieldD).filter isGenOrPost = [] := by
  induction ys with
  | nil => rfl
  | cons y ys ih => simp [isGenOrPost, isGen, isPost, ih]

lemma runLoop_strictAlt (strat : StrategySpec)
    (driver : Nat → Option Decision) :
    ∀ (n : Nat) (ex : ExecState) (prev : Option ExecResult) (yc : Nat)
    (tail : List Event),
    ex.len - ex.pos = n → tail.filter isGenOrPost = [] →
    strictAlt prev
      (((runLoop strat driver ex prev yc).1 ++ tail).filter isGenOrPost) =
      true := by
  intro n
  induction n using Nat.strong_induction_on with
  | _ n ih =>
    intro ex prev yc tail hn htail
    rw [runLoop]
    split
    · simp [isGenOrPost, isGen, isPost, htail, strictAlt]
    · rename_i hfin
      simp only [ExecState.finished, decide_eq_true_eq, Nat.not_le] at hfin
      simp only [List.cons_append, List.append_assoc, List.filter_cons,
        List.filter_append, isGenOrPost, isGen, isPost, Bool.false_or,
        Bool.or_false, Bool.true_or, filter_yields_eq_nil]
      simp only [List.nil_append, strictAlt, decide_eq_true_eq]
      have hrec := ih (ex.len - (ex.pos + 1)) (by omega)
        { ex with pos := ex.pos + 1 }
        (ex.spec.stepResult ex.pos (strat.genDec ex.pos prev)
          ((List.range (ex.spec.stepYields ex.pos).length).map fun j =>
            driver (yc + j)))
        (yc + (ex.spec.stepYields ex.pos).length) tail rfl htail
      rw [List.filter_append] at hrec
      simpa using hrec

/- ## Shape of a successful run -/

lemma run_shape (startT endT : Int) (strat : StrategySpec)
    (espec : ExecutorSpec) (driver : Nat → Option Decision) (rv : Option Unit)
    (tr : List Event) (outs : List Decision) (cap : Option (PortMap × IndMap))
    (h : collect_data_loop startT endT strat espec driver rv =
      Except.ok (tr, outs, cap)) :
    ∃ tail, tr = Event.resetExec startT endT ::
        Event.resetStrat true espec.levelInfra ::
        ((runLoop strat driver (initState espec) none 0).1 ++
          Event.postUpper :: tail) ∧
      (∀ e ∈ tail, e = Event.getAllExecs) := by
  unfold collect_data_loop at h
  split at h
  · exact absurd h (by simp)
  · cases rv with
    | none =>
      simp only [Except.ok.injEq, Prod.mk.injEq] at h
      obtain ⟨rfl, -, -⟩ := h
      exact ⟨[], by simp [initState], by intro e he; cases he⟩
    | some u =>
      simp only at h
      split at h
      · exact absurd h (by simp)
      · simp only [Except.ok.injEq, Prod.mk.injEq] at h
        obtain ⟨rfl, -, -⟩ := h
        refine ⟨[Event.getAllExecs], by simp [initState], ?_⟩
        intro e he
        simpa using he

/-- Is this event an executor or strategy reset? -/
def isReset : Event → Bool
  | Event.resetExec _ _ => true
  | Event.resetStrat _ _ => true
  | _ => false

lemma loop_event_not_upper (e : Event) (he : isLoopEvent e = true) :
    isUpper e = false := by
  cases e <;> simp_all [isLoopEvent, isUpper]

lemma loop_event_not_reset (e : Event) (he : isLoopEvent e = true) :
    isReset e = false := by
  cases e <;> simp_all [isLoopEvent, isReset]

lemma noStepAfterUpper_cons_not_upper (e : Event) (he : isUpper e = false)
    (l : List Event) : noStepAfterUpper (e :: l) = noStepAfterUpper l := by
  cases e <;> simp_all [noStepAfterUpper, isUpper]

lemma noStepAfterUpper_append_no_upper :
    ∀ (l : List Event), (∀ e ∈ l, isUpper e = false) →
    ∀ (m : List Event), noStepAfterUpper (l ++ m) = noStepAfterUpper m := by
  intro l
  induction l with
  | nil => intro _ m; rfl
  | cons e rest ih =>
    intro h m
    rw [List.cons_append,
      noStepAfterUpper_cons_not_upper e (h e (List.mem_cons_self e rest))]
    exact ih (fun x hx => h x (List.mem_cons_of_mem e hx)) m

/- ## The claims -/

/-- C1: in every run of the simulation loop, the top-level executor's
`finished()` is checked immediately before each decision request, every
`finished() = false` check is followed by a decision request, the loop
exits exactly at the unique `finished() = true` check, and no decision is
ever requested after `finished()` reports true (also for a zero-length
range, where `finished()` may be true before any decision is
requested). -/
theorem c1_finished_gates_every_decision
    (startT endT : Int) (strat : StrategySpec) (espec : ExecutorSpec)
    (driver : Nat → Option Decision) (rv : Option Unit) (tr : List Event)
    (outs : List Decision) (cap : Option (PortMap × IndMap))
    (h : collect_data_loop startT endT strat espec driver rv =
      Except.ok (tr, outs, cap)) :
    genPrecededBy none tr = true ∧ noGenAfterFin tr = true ∧
    finFalseThenGen tr = true ∧ tr.countP isFinTrue = 1 := by
  obtain ⟨tail, rfl, htail⟩ := run_shape _ _ _ _ _ _ _ _ _ h
  have hgen : ∀ e ∈ Event.postUpper :: tail, isGen e = false := by
    intro e he
    rcases List.mem_cons.mp he with rfl | h2
    · rfl
    · rw [htail e h2]; rfl
  refine ⟨?_, ?_, ?_, ?_⟩
  · simp only [genPrecededBy, isGen, Bool.not_false, Bool.true_or,
      Bool.true_and]
    exact runLoop_genPreceded strat driver _ (initState espec) none 0 _ _
      rfl hgen
  · rw [noGenAfterFin_cons_not_fin (Event.resetExec startT endT) rfl,
      noGenAfterFin_cons_not_fin (Event.resetStrat true espec.levelInfra) rfl]
    exact runLoop_noGenAfterFin strat driver _ (initState espec) none 0 _
      rfl hgen
  · rw [finFalseThenGen_cons_not_cff _ (by simp),
      finFalseThenGen_cons_not_cff _ (by simp)]
    refine runLoop_finFalseThenGen strat driver _ (initState espec) none 0 _
      rfl ?_
    intro e he
    rcases List.mem_cons.mp he with rfl | h2
    · simp
    · rw [htail e h2]; simp
  · have hsuffix : (Event.postUpper :: tail).countP isFinTrue = 0 := by
      rw [List.countP_eq_zero]
      intro e he
      rcases List.mem_cons.mp he with rfl | h2
      · simp [isFinTrue]
      · rw [htail e h2]; simp [isFinTrue]
    simp only [List.countP_cons, List.countP_append,
      runLoop_countFinTrue strat driver _ (initState espec) none 0 rfl,
      hsuffix, isFinTrue]
    simp

/-- C2: decisions and results strictly alternate: restricted to decision
requests and `post_exe_step` deliveries, the trace is
`generate_trade_decision(None), post_exe_step(r₀),
generate_trade_decision(r₀), post_exe_step(r₁), ...` — each step's final
result (even a null one) is delivered exactly once, before the next
decision is requested, and each request receives exactly the previous
step's result. -/
theorem c2_strict_alternation
    (startT endT : Int) (strat : StrategySpec) (espec : ExecutorSpec)
    (driver : Nat → Option Decision) (rv : Option Unit) (tr : List Event)
    (outs : List Decision) (cap : Option (PortMap × IndMap))
    (h : collect_data_loop startT endT strat espec driver rv =
      Except.ok (tr, outs, cap)) :
    strictAlt none (tr.filter isGenOrPost) = true := by
  obtain ⟨tail, rfl, htail⟩ := run_shape _ _ _ _ _ _ _ _ _ h
  have hsuffix : (Event.postUpper :: tail).filter isGenOrPost = [] := by
    rw [List.filter_eq_nil_iff]
    intro e he
    rcases List.mem_cons.mp he with rfl | h2
    · simp [isGenOrPost, isGen, isPost]
    · rw [htail e h2]; simp [isGenOrPost, isGen, isPost]
  simp only [List.filter_cons]
  simp only [isGenOrPost, isGen, isPost, Bool.or_self, if_false,
    Bool.false_or, cond_false]
  exact runLoop_strictAlt strat driver _ (initState espec) none 0 _ rfl
    hsuffix

/-- C3: a full run performs exactly `trade_calendar.get_trade_len()` outer
decision/result pairs: the trace holds exactly `tradeLen` decision
requests and exactly `tradeLen` `post_exe_step` deliveries (the executor
contract being that `finished()` is exactly the exhaustion of the outer
calendar). -/
theorem c3_trade_len_outer_pairs
    (startT endT : Int) (strat : StrategySpec) (espec : ExecutorSpec)
    (driver : Nat → Option Decision) (rv : Option Unit) (tr : List Event)
    (outs : List Decision) (cap : Option (PortMap × IndMap))
    (h : collect_data_loop startT endT strat espec driver rv =
      Except.ok (tr, outs, cap)) :
    tr.countP isGen = espec.tradeLen ∧ tr.countP isPost = espec.tradeLen := by
  obtain ⟨tail, rfl, htail⟩ := run_shape _ _ _ _ _ _ _ _ _ h
  have hg : (Event.postUpper :: tail).countP isGen = 0 := by
    rw [List.countP_eq_zero]
    intro e he
    rcases List.mem_cons.mp he with rfl | h2
    · simp [isGen]
    · rw [htail e h2]; simp [isGen]
  have hp : (Event.postUpper :: tail).countP isPost = 0 := by
    rw [List.countP_eq_zero]
    intro e he
    rcases List.mem_cons.mp he with rfl | h2
    · simp [isPost]
    · rw [htail e h2]; simp [isPost]
  constructor
  · simp only [List.countP_cons, List.countP_append,
      runLoop_countGen strat driver _ (initState espec) none 0 rfl, hg,
      isGen]
    simp [initState]
  · simp only [List.countP_cons, List.countP_append,
      runLoop_countPost strat driver _ (initState espec) none 0 rfl, hp,
      isPost]
    simp [initState]

/-- C4: every successful run starts by resetting the executor with
`[start, end]`, then resetting the strategy with the level-infrastructure
handle of the already-reset executor; these are the first two events, no
other reset event ever occurs, and both happen before any decision
request. -/
theorem c4_reset_order
    (startT endT : Int) (strat : StrategySpec) (espec : ExecutorSpec)
    (driver : Nat → Option Decision) (rv : Option Unit) (tr : List Event)
    (outs : List Decision) (cap : Option (PortMap × IndMap))
    (h : collect_data_loop startT endT strat espec driver rv =
      Except.ok (tr, outs, cap)) :
    ∃ rest, tr = Event.resetExec startT endT ::
        Event.resetStrat true espec.levelInfra :: rest ∧
      ∀ e ∈ rest, isReset e = false := by
  obtain ⟨tail, rfl, htail⟩ := run_shape _ _ _ _ _ _ _ _ _ h
  refine ⟨_, rfl, ?_⟩
  intro e he
  rcases List.mem_append.mp he with h1 | h2
  · exact loop_event_not_reset e
      (runLoop_mem_isLoopEvent strat driver _ (initState espec) none 0 rfl
        e h1)
  · rcases List.mem_cons.mp h2 with rfl | h3
    · rfl
    · rw [htail e h3]; rfl

/-- C5: in every run that terminates normally,
`post_upper_level_exe_step` fires exactly once, after the stepping loop
exits — no decision request or `post_exe_step` delivery follows it; this
includes a zero-decision run (`start == end` with an exhausted calendar),
which completes without failure. -/
theorem c5_post_level_hook_once
    (startT endT : Int) (strat : StrategySpec) (espec : ExecutorSpec)
    (driver : Nat → Option Decision) (rv : Option Unit) (tr : List Event)
    (outs : List Decision) (cap : Option (PortMap × IndMap))
    (h : collect_data_loop startT endT strat espec driver rv =
      Except.ok (tr, outs, cap)) :
    tr.countP isUpper = 1 ∧ noStepAfterUpper tr = true := by
  obtain ⟨tail, rfl, htail⟩ := run_shape _ _ _ _ _ _ _ _ _ h
  have hloop : ∀ e ∈ (runLoop strat driver (initState espec) none 0).1,
      isUpper e = false := fun e he => loop_event_not_upper e
    (runLoop_mem_isLoopEvent strat driver _ (initState espec) none 0 rfl
      e he)
  constructor
  · have h1 : ((runLoop strat driver (initState espec) none 0).1).countP
        isUpper = 0 := by
      rw [List.countP_eq_zero]
      intro e he
      simp [hloop e he]
    have h2 : tail.countP isUpper = 0 := by
      rw [List.countP_eq_zero]
      intro e he
      rw [htail e he]
      simp [isUpper]
    simp only [List.countP_cons, List.countP_append, h1, h2, isUpper]
    simp
  · rw [noStepAfterUpper_cons_not_upper (Event.resetExec startT endT) rfl,
      noStepAfterUpper_cons_not_upper
        (Event.resetStrat true espec.levelInfra) rfl,
      noStepAfterUpper_append_no_upper _ hloop]
    show (noStepAfterUpper (Event.postUpper :: tail)) = true
    simp only [noStepAfterUpper]
    rw [List.all_eq_true]
    intro e he
    rw [htail e he]
    rfl

/- ## Concrete fixtures used by the witnesses -/

lemma natDigits_digit (n : Nat) (h : n < 10) :
    natDigits n = [Nat.digitChar n] := by
  rw [natDigits]; simp [h]

def wStrat : StrategySpec := ⟨fun i _ => i + 20⟩

def wDriver : Nat → Option Decision := fun _ => none

def wNodeA : ExecNode :=
  { timePerStep := "1day",
    account := { portMetrEnabled := true, portfolioMetrics := 5,
                 tradeIndicator := { df := 8, tag := 1 } } }

def wNodeB : ExecNode :=
  { timePerStep := "5min",
    account := { portMetrEnabled := false, portfolioMetrics := 6,
                 tradeIndicator := { df := 9, tag := 2 } } }

def wExec : ExecutorSpec :=
  { tradeLen := 2, levelInfra := 7, stepYields := fun i => [i],
    stepResult := fun i _ _ => if i = 0 then none else some i,
    nodes := [wNodeA, wNodeB] }

def wExec0 : ExecutorSpec :=
  { tradeLen := 0, levelInfra := 7, stepYields := fun _ => [],
    stepResult := fun _ _ _ => none, nodes := [] }

def wPm : PortMap := mapSet mapEmpty "1day" 5

def wIm : IndMap :=
  mapSet (mapSet mapEmpty "1day" (8, { df := 8, tag := 1 }))
    "5min" (9, { df := 9, tag := 2 })

def wTraceSome : List Event :=
  [Event.resetExec 0 5, Event.resetStrat true 7,
   Event.checkFin false, Event.genDecision none, Event.yieldD 0,
   Event.postExeStep none,
   Event.checkFin false, Event.genDecision none, Event.yieldD 1,
   Event.postExeStep (some 1),
   Event.checkFin true, Event.postUpper, Event.getAllExecs]

def wTrace0 : List Event :=
  [Event.resetExec 0 0, Event.resetStrat true 7,
   Event.checkFin true, Event.postUpper]

lemma wRunSome : collect_data_loop 0 5 wStrat wExec wDriver (some ()) =
    Except.ok (wTraceSome, [0, 1], some (wPm, wIm)) := by
  simp [collect_data_loop, runLoop, initState, ExecState.finished, wStrat,
    wExec, wDriver, aggregate, aggGo, freqKey, Freq.parse, formatFreq,
    natDigits_digit, digitsToNat, wNodeA, wNodeB, supportedFreqUnits,
    wPm, wIm, wTraceSome]
  exact ⟨rfl, rfl⟩

lemma wRun0 : collect_data_loop 0 0 wStrat wExec0 wDriver none =
    Except.ok (wTrace0, [], none) := by
  simp [collect_data_loop, runLoop, initState, ExecState.finished, wStrat,
    wExec0, wDriver, wTrace0]

/-- Witness for C1 at a concrete two-step run. -/
theorem c1_witness :
    collect_data_loop 0 5 wStrat wExec wDriver (some ()) =
      Except.ok (wTraceSome, [0, 1], some (wPm, wIm)) ∧
    (genPrecededBy none wTraceSome = true ∧
      noGenAfterFin wTraceSome = true ∧
      finFalseThenGen wTraceSome = true ∧
      wTraceSome.countP isFinTrue = 1) :=
  ⟨wRunSome, c1_finished_gates_every_decision 0 5 wStrat wExec wDriver
    (some ()) wTraceSome [0, 1] (some (wPm, wIm)) wRunSome⟩

/-- Witness for C2 at a concrete run whose first step result is null. -/
theorem c2_witness :
    collect_data_loop 0 5 wStrat wExec wDriver (some ()) =
      Except.ok (wTraceSome, [0, 1], some (wPm, wIm)) ∧
    strictAlt none (wTraceSome.filter isGenOrPost) = true :=
  ⟨wRunSome, c2_strict_alternation 0 5 wStrat wExec wDriver
    (some ()) wTraceSome [0, 1] (some (wPm, wIm)) wRunSome⟩

/-- Witness for C3: the two-step run requests exactly two decisions and
delivers exactly two results. -/
theorem c3_witness :
    collect_data_loop 0 5 wStrat wExec wDriver (some ()) =
      Except.ok (wTraceSome, [0, 1], some (wPm, wIm)) ∧
    (wTraceSome.countP isGen = wExec.tradeLen ∧
      wTraceSome.countP isPost = wExec.tradeLen) :=
  ⟨wRunSome, c3_trade_len_outer_pairs 0 5 wStrat wExec wDriver
    (some ()) wTraceSome [0, 1] (some (wPm, wIm)) wRunSome⟩

/-- Witness for C4 at a concrete run. -/
theorem c4_witness :
    collect_data_loop 0 5 wStrat wExec wDriver (some ()) =
      Except.ok (wTraceSome, [0, 1], some (wPm, wIm)) ∧
    (∃ rest, wTraceSome = Event.resetExec 0 5 ::
        Event.resetStrat true wExec.levelInfra :: rest ∧
      ∀ e ∈ rest, isReset e = false) :=
  ⟨wRunSome, c4_reset_order 0 5 wStrat wExec wDriver
    (some ()) wTraceSome [0, 1] (some (wPm, wIm)) wRunSome⟩

/-- Witness for C5 at a zero-length run (`start == end`, zero decisions):
the run succeeds and fires the post-level hook exactly once. -/
theorem c5_witness :
    collect_data_loop 0 0 wStrat wExec0 wDriver none =
      Except.ok (wTrace0, [], none) ∧
    (wTrace0.countP isUpper = 1 ∧ noStepAfterUpper wTrace0 = true) :=
  ⟨wRun0, c5_post_level_hook_once 0 0 wStrat wExec0 wDriver none
    wTrace0 [] none wRun0⟩

lemma loop_event_not_getAll (e : Event) (he : isLoopEvent e = true) :
    isGetAll e = false := by
  cases e <;> simp_all [isLoopEvent, isGetAll]

/-- C6: metrics aggregation runs iff a capture target was supplied.  With
`return_value = None` no aggregation work occurs: nothing is captured and
`get_all_executors` is never called.  With a capture dict, aggregation
visits all executors (`get_all_executors` is called exactly once) and the
`(portfolio_dict, indicator_dict)` output is stored into the capture. -/
theorem c6_aggregation_iff_capture
    (startT endT : Int) (strat : StrategySpec) (espec : ExecutorSpec)
    (driver : Nat → Option Decision) :
    (∀ tr outs cap, collect_data_loop startT endT strat espec driver none =
        Except.ok (tr, outs, cap) →
      cap = none ∧ tr.countP isGetAll = 0) ∧
    (∀ tr outs cap,
      collect_data_loop startT endT strat espec driver (some ()) =
        Except.ok (tr, outs, cap) →
      (∃ pm im, aggregate espec.nodes = Except.ok (pm, im) ∧
        cap = some (pm, im)) ∧ tr.countP isGetAll = 1) := by
  have hloop : ((runLoop strat driver (initState espec) none 0).1).countP
      isGetAll = 0 :=
    countP_eq_zero_of_isLoopEvent strat driver (initState espec) none 0
      isGetAll loop_event_not_getAll
  constructor
  · intro tr outs cap h
    unfold collect_data_loop at h
    split at h
    · exact absurd h (by simp)
    · simp only [Except.ok.injEq, Prod.mk.injEq] at h
      obtain ⟨rfl, -, rfl⟩ := h
      refine ⟨rfl, ?_⟩
      simp only [List.countP_cons, List.countP_append, hloop, isGetAll]
      simp
  · intro tr outs cap h
    unfold collect_data_loop at h
    split at h
    · exact absurd h (by simp)
    · simp only at h
      split at h
      · exact absurd h (by simp)
      · rename_i pm im hagg
        simp only [Except.ok.injEq, Prod.mk.injEq] at h
        obtain ⟨rfl, -, rfl⟩ := h
        refine ⟨⟨pm, im, hagg, rfl⟩, ?_⟩
        simp only [List.countP_append, List.countP_cons, hloop, isGetAll]
        simp

/-- Witness for C6: no capture ⇒ no aggregation, capture ⇒ aggregated
output stored, on concrete runs. -/
theorem c6_witness :
    (collect_data_loop 0 0 wStrat wExec0 wDriver none =
        Except.ok (wTrace0, [], none) ∧
      ((none : Option (PortMap × IndMap)) = none ∧
        wTrace0.countP isGetAll = 0)) ∧
    (collect_data_loop 0 5 wStrat wExec wDriver (some ()) =
        Except.ok (wTraceSome, [0, 1], some (wPm, wIm)) ∧
      ((∃ pm im, aggregate wExec.nodes = Except.ok (pm, im) ∧
          some (wPm, wIm) = some (pm, im)) ∧
        wTraceSome.countP isGetAll = 1)) :=
  ⟨⟨wRun0, (c6_aggregation_iff_capture 0 0 wStrat wExec0 wDriver).1
      wTrace0 [] none wRun0⟩,
   ⟨wRunSome, (c6_aggregation_iff_capture 0 5 wStrat wExec wDriver).2
      wTraceSome [0, 1] (some (wPm, wIm)) wRunSome⟩⟩

/- ## Aggregation lemmas -/

lemma mapSet_same {α : Type} (d : StrMap α) (k : String) (v : α) :
    mapSet d k v k = some v := by
  simp [mapSet]

lemma mapSet_other {α : Type} (d : StrMap α) (k q : String) (v : α)
    (h : q ≠ k) : mapSet d k v q = d q := by
  simp [mapSet, h]

lemma aggGo_im_isSome (q : String) :
    ∀ (nodes : List ExecNode) (pm : PortMap) (im : IndMap)
    (pmF : PortMap) (imF : IndMap),
    aggGo nodes pm im = Except.ok (pmF, imF) →
    (im q).isSome = true → (imF q).isSome = true := by
  intro nodes
  induction nodes with
  | nil =>
    intro pm im pmF imF h hq
    simp only [aggGo, Except.ok.injEq, Prod.mk.injEq] at h
    obtain ⟨-, rfl⟩ := h
    exact hq
  | cons node rest ih =>
    intro pm im pmF imF h hq
    simp only [aggGo] at h
    split at h
    · exact absurd h (by simp)
    · rename_i key hkey
      refine ih _ _ _ _ h ?_
      by_cases hqk : q = key
      · subst hqk; rw [mapSet_same]; rfl
      · rw [mapSet_other _ _ _ _ hqk]; exact hq

lemma aggGo_untouched (key : String) :
    ∀ (nodes : List ExecNode) (pm : PortMap) (im : IndMap)
    (pmF : PortMap) (imF : IndMap),
    (∀ nd ∈ nodes, freqKey nd.timePerStep ≠ some key) →
    aggGo nodes pm im = Except.ok (pmF, imF) →
    pmF key = pm key ∧ imF key = im key := by
  intro nodes
  induction nodes with
  | nil =>
    intro pm im pmF imF _ h
    simp only [aggGo, Except.ok.injEq, Prod.mk.injEq] at h
    obtain ⟨rfl, rfl⟩ := h
    exact ⟨rfl, rfl⟩
  | cons node rest ih =>
    intro pm im pmF imF hno h
    simp only [aggGo] at h
    split at h
    · exact absurd h (by simp)
    · rename_i k hk
      have hkne : k ≠ key := by
        intro hcontra
        exact hno node (List.mem_cons_self node rest) (hcontra ▸ hk)
      have hrest := ih _ _ _ _
        (fun nd hnd => hno nd (List.mem_cons_of_mem node hnd)) h
      have hkey_ne : key ≠ k := fun hc => hkne hc.symm
      constructor
      · rw [hrest.1]
        split
        · rw [mapSet_other _ _ _ _ hkey_ne]
        · rfl
      · rw [hrest.2, mapSet_other _ _ _ _ hkey_ne]

lemma aggGo_node_lookup :
    ∀ (nodes : List ExecNode) (pm : PortMap) (im : IndMap)
    (pmF : PortMap) (imF : IndMap),
    aggGo nodes pm im = Except.ok (pmF, imF) →
    ∀ node ∈ nodes, ∀ key, freqKey node.timePerStep = some key →
    (nodes.map fun nd => freqKey nd.timePerStep).Nodup →
    (node.account.portMetrEnabled = false → pmF key = pm key) ∧
    (node.account.portMetrEnabled = true →
      pmF key = some node.account.portfolioMetrics) ∧
    imF key = some (node.account.tradeIndicator.df,
      node.account.tradeIndicator) := by
  intro nodes
  induction nodes with
  | nil =>
    intro pm im pmF imF _ node hmem
    cases hmem
  | cons hd rest ih =>
    intro pm im pmF imF h node hmem key hkey hnodup
    simp only [aggGo] at h
    split at h
    · exact absurd h (by simp)
    · rename_i k hk
      rcases List.mem_cons.mp hmem with rfl | hmem2
      · rw [hkey] at hk
        injection hk with hk
        subst hk
        have hrest_no : ∀ nd ∈ rest, freqKey nd.timePerStep ≠ some key := by
          intro nd hnd hc
          have : freqKey node.timePerStep ∈
              rest.map fun nd => freqKey nd.timePerStep := by
            rw [hkey, ← hc]
            exact List.mem_map_of_mem _ hnd
          exact (List.nodup_cons.mp hnodup).1 this
        have huntouched := aggGo_untouched key rest _ _ _ _ hrest_no h
        refine ⟨?_, ?_, ?_⟩
        · intro hdis
          rw [huntouched.1, hdis]
          simp
        · intro hen
          rw [huntouched.1, hen]
          simp [mapSet_same]
        · rw [huntouched.2, mapSet_same]
      · have hne : k ≠ key := by
          intro hcontra
          subst hcontra
          have : freqKey node.timePerStep ∈
              rest.map fun nd => freqKey nd.timePerStep :=
            List.mem_map_of_mem _ hmem2
          rw [hkey, ← hk] at this
          exact (List.nodup_cons.mp hnodup).1 this
        have := ih _ _ _ _ h node hmem2 key hkey
          (List.nodup_cons.mp hnodup).2
        refine ⟨?_, this.2.1, this.2.2⟩
        intro hdis
        rw [this.1 hdis]
        have hkey_ne : key ≠ k := fun hc => hne hc.symm
        split
        · rw [mapSet_other _ _ _ _ hkey_ne]
        · rfl

lemma aggGo_mem_im :
    ∀ (nodes : List ExecNode) (pm : PortMap) (im : IndMap)
    (pmF : PortMap) (imF : IndMap),
    aggGo nodes pm im = Except.ok (pmF, imF) →
    ∀ node ∈ nodes, ∀ key, freqKey node.timePerStep = some key →
    (imF key).isSome = true := by
  intro nodes
  induction nodes with
  | nil =>
    intro pm im pmF imF _ node hmem
    cases hmem
  | cons hd rest ih =>
    intro pm im pmF imF h node hmem key hkey
    simp only [aggGo] at h
    split at h
    · exact absurd h (by simp)
    · rename_i k hk
      rcases List.mem_cons.mp hmem with rfl | hmem2
      · rw [hkey] at hk
        injection hk with hk
        subst hk
        refine aggGo_im_isSome key rest _ _ _ _ h ?_
        rw [mapSet_same]
        rfl
      · exact ih _ _ _ _ h node hmem2 key hkey

/-- C7: for every executor node visited during aggregation, the node is
always entered into the indicator map under its frequency key; and (when
frequency keys are collision-free, as the spec's uniqueness invariant
assumes) a node with disabled portfolio metrics is omitted from the
portfolio map without failure, while a node with enabled portfolio metrics
appears in both maps. -/
theorem c7_portfolio_optional_indicator_always
    (nodes : List ExecNode) (pm : PortMap) (im : IndMap)
    (h : aggregate nodes = Except.ok (pm, im))
    (node : ExecNode) (hmem : node ∈ nodes)
    (key : String) (hkey : freqKey node.timePerStep = some key) :
    (im key).isSome = true ∧
    ((nodes.map fun nd => freqKey nd.timePerStep).Nodup →
      (node.account.portMetrEnabled = false → pm key = none) ∧
      (node.account.portMetrEnabled = true →
        pm key = some node.account.portfolioMetrics ∧
        im key = some (node.account.tradeIndicator.df,
          node.account.tradeIndicator))) := by
  constructor
  · exact aggGo_mem_im nodes mapEmpty mapEmpty pm im h node hmem key hkey
  · intro hnodup
    have := aggGo_node_lookup nodes mapEmpty mapEmpty pm im h node hmem
      key hkey hnodup
    exact ⟨fun hdis => by rw [this.1 hdis]; rfl,
      fun hen => ⟨this.2.1 hen, this.2.2⟩⟩

lemma wKeyA : freqKey "1day" = some "1day" := by
  simp [freqKey, Freq.parse, formatFreq, natDigits_digit, digitsToNat,
    supportedFreqUnits]
  rfl

lemma wKeyB : freqKey "5min" = some "5min" := by
  simp [freqKey, Freq.parse, formatFreq, natDigits_digit, digitsToNat,
    supportedFreqUnits]
  rfl

lemma wAgg : aggregate wExec.nodes = Except.ok (wPm, wIm) := by
  simp only [aggregate, aggGo, wExec, wNodeA, wNodeB, wKeyA, wKeyB, wPm,
    wIm]
  rfl

/-- Witness for C7 at a concrete tree: the disabled node "5min" is in the
indicator map but not the portfolio map. -/
theorem c7_witness :
    aggregate wExec.nodes = Except.ok (wPm, wIm) ∧
    ((wIm "5min").isSome = true ∧
      ((wExec.nodes.map fun nd => freqKey nd.timePerStep).Nodup →
        (wNodeB.account.portMetrEnabled = false → wPm "5min" = none) ∧
        (wNodeB.account.portMetrEnabled = true →
          wPm "5min" = some wNodeB.account.portfolioMetrics ∧
          wIm "5min" = some (wNodeB.account.tradeIndicator.df,
            wNodeB.account.tradeIndicator)))) :=
  ⟨wAgg, c7_portfolio_optional_indicator_always wExec.nodes wPm wIm wAgg
    wNodeB (by simp [wExec]) "5min" (by simp [wNodeB, wKeyB])⟩

/- ## Frequency-label round-trip lemmas -/

lemma digitChar_isDigit (d : Nat) (h : d < 10) :
    (Nat.digitChar d).isDigit = true := by
  interval_cases d <;> decide

lemma digitChar_toNat (d : Nat) (h : d < 10) :
    (Nat.digitChar d).toNat = d + 48 := by
  interval_cases d <;> decide

lemma natDigits_ne_nil (n : Nat) : natDigits n ≠ [] := by
  rw [natDigits]
  split <;> simp

lemma natDigits_all_digits :
    ∀ (n : Nat), ∀ c ∈ natDigits n, c.isDigit = true := by
  intro n
  induction n using Nat.strong_induction_on with
  | _ n ih =>
    intro c hc
    rw [natDigits] at hc
    split at hc
    · rename_i h
      simp only [List.mem_singleton] at hc
      subst hc
      exact digitChar_isDigit n h
    · rename_i h
      rcases List.mem_append.mp hc with h1 | h2
      · exact ih (n / 10) (Nat.div_lt_self (by omega) (by omega)) c h1
      · simp only [List.mem_singleton] at h2
        subst h2
        exact digitChar_isDigit _ (Nat.mod_lt n (by omega))

lemma digitsToNat_go :
    ∀ (n a : Nat),
    (natDigits n).foldl (fun m c => m * 10 + (c.toNat - 48)) a =
      a * 10 ^ (natDigits n).length + n := by
  intro n
  induction n using Nat.strong_induction_on with
  | _ n ih =>
    intro a
    rw [natDigits]
    split
    · rename_i h
      simp only [List.foldl_cons, List.foldl_nil, List.length_singleton,
        pow_one]
      rw [digitChar_toNat n h]
      omega
    · rename_i h
      rw [List.foldl_append, ih (n / 10) (Nat.div_lt_self (by omega)
        (by omega)) a]
      simp only [List.foldl_cons, List.foldl_nil, List.length_append,
        List.length_singleton]
      rw [digitChar_toNat _ (Nat.mod_lt n (by omega)), pow_succ]
      have hdm : n / 10 * 10 + n % 10 = n := Nat.div_add_mod' n 10
      calc (a * 10 ^ (natDigits (n / 10)).length + n / 10) * 10 +
            (n % 10 + 48 - 48)
          = a * (10 ^ (natDigits (n / 10)).length * 10) +
            (n / 10 * 10 + n % 10) := by ring_nf; omega
        _ = a * (10 ^ (natDigits (n / 10)).length * 10) + n := by rw [hdm]

lemma digitsToNat_natDigits (n : Nat) : digitsToNat (natDigits n) = n := by
  have := digitsToNat_go n 0
  simpa [digitsToNat] using this

lemma takeWhile_append_all (p : Char → Bool) :
    ∀ (l m : List Char), (∀ c ∈ l, p c = true) → m.takeWhile p = [] →
    (l ++ m).takeWhile p = l ∧ (l ++ m).dropWhile p = m := by
  intro l
  induction l with
  | nil =>
    intro m _ hm
    refine ⟨hm, ?_⟩
    cases m with
    | nil => rfl
    | cons c m' =>
      simp only [List.takeWhile_cons] at hm
      split at hm
      · exact absurd hm (by simp)
      · rename_i hpc
        simp only [List.nil_append, List.dropWhile_cons]
        simp_all
  | cons c l' ih =>
    intro m hl hm
    have hpc : p c = true := hl c (List.mem_cons_self c l')
    have := ih m (fun x hx => hl x (List.mem_cons_of_mem c hx)) hm
    simp only [List.cons_append, List.takeWhile_cons, List.dropWhile_cons,
      hpc, if_true]
    simp [this.1, this.2]

lemma parse_format_aux (n : Nat) (u : String)
    (hta : u.data.takeWhile Char.isDigit = [])
    (hcontains : supportedFreqUnits.contains u = true) :
    Freq.parse (formatFreq n u) = some (n, u) := by
  have hdata : (formatFreq n u).data = natDigits n ++ u.data := rfl
  have htw := takeWhile_append_all Char.isDigit (natDigits n) u.data
    (natDigits_all_digits n) hta
  have hmk : String.mk u.data = u := by cases u; rfl
  have hne : (natDigits n).isEmpty = false := by
    cases h : natDigits n with
    | nil => exact absurd h (natDigits_ne_nil n)
    | cons c l => rfl
  simp only [Freq.parse, hdata, htw.1, htw.2, hne, hmk, hcontains,
    Bool.false_eq_true, if_false, if_true, digitsToNat_natDigits]

/-- C8: for every supported granularity label — a multiplier followed by a
supported unit — `Freq.parse` recovers the (multiplier, unit) pair and the
frequency key (the concatenated reformatting) reproduces the original
label exactly. -/
theorem c8_freq_label_roundtrip (n : Nat) (u : String)
    (hu : u ∈ supportedFreqUnits) :
    Freq.parse (formatFreq n u) = some (n, u) ∧
    freqKey (formatFreq n u) = some (formatFreq n u) := by
  have hparse : Freq.parse (formatFreq n u) = some (n, u) := by
    fin_cases hu <;> exact parse_format_aux n _ (by decide) (by decide)
  refine ⟨hparse, ?_⟩
  rw [freqKey, hparse]
  rfl

/-- Witness for C8 at the concrete label "5min" = `formatFreq 5 "min"`. -/
theorem c8_witness :
    "min" ∈ supportedFreqUnits ∧
    (Freq.parse (formatFreq 5 "min") = some (5, "min") ∧
      freqKey (formatFreq 5 "min") = some (formatFreq 5 "min")) :=
  ⟨by decide, c8_freq_label_roundtrip 5 "min" (by decide)⟩

/-- C9: `backtest_loop` is exactly the unattended drive of
`collect_data_loop`: it resumes every suspension with no override,
discards intermediate yields, and returns what aggregation wrote into the
capture dict — so it coincides with the spec's external no-override drive,
and on ordered bounds it returns exactly the aggregated
`(portfolio_dict, indicator_dict)` pair. -/
theorem c9_backtest_loop_unattended (startT endT : Int)
    (strat : StrategySpec) (espec : ExecutorSpec) :
    backtest_loop startT endT strat espec =
      unattendedDrive startT endT strat espec ∧
    (∀ pm im, startT ≤ endT → aggregate espec.nodes = Except.ok (pm, im) →
      backtest_loop startT endT strat espec =
        Except.ok (some pm, some im)) := by
  constructor
  · rfl
  · intro pm im hle hagg
    have hnot : ¬ endT < startT := by omega
    unfold backtest_loop collect_data_loop
    rw [if_neg hnot]
    simp only [hagg]
    rfl

/-- Witness for C9 at a concrete run. -/
theorem c9_witness :
    backtest_loop 0 5 wStrat wExec = unattendedDrive 0 5 wStrat wExec ∧
    ((0 : Int) ≤ 5 ∧ aggregate wExec.nodes = Except.ok (wPm, wIm) ∧
      backtest_loop 0 5 wStrat wExec = Except.ok (some wPm, some wIm)) :=
  ⟨(c9_backtest_loop_unattended 0 5 wStrat wExec).1,
   by decide, wAgg,
   (c9_backtest_loop_unattended 0 5 wStrat wExec).2 wPm wIm (by decide)
     wAgg⟩

lemma aggGo_error_kind :
    ∀ (nodes : List ExecNode) (pm : PortMap) (im : IndMap)
    (e : BacktestError), aggGo nodes pm im = Except.error e →
    e = BacktestError.freqParseError := by
  intro nodes
  induction nodes with
  | nil =>
    intro pm im e h
    exact absurd h (by simp [aggGo])
  | cons node rest ih =>
    intro pm im e h
    simp only [aggGo] at h
    split at h
    · simp only [Except.error.injEq] at h
      exact h.symm
    · exact ih _ _ _ h

/-- C10: a run whose `end_time` precedes `start_time` fails with
ConfigurationError, and with ordered bounds no ConfigurationError is ever
raised. -/
theorem c10_configuration_error (startT endT : Int) (strat : StrategySpec)
    (espec : ExecutorSpec) (driver : Nat → Option Decision)
    (rv : Option Unit) :
    (endT < startT → collect_data_loop startT endT strat espec driver rv =
      Except.error BacktestError.configurationError) ∧
    (startT ≤ endT → collect_data_loop startT endT strat espec driver rv ≠
      Except.error BacktestError.configurationError) := by
  constructor
  · intro hlt
    unfold collect_data_loop
    simp [hlt]
  · intro hle hcontra
    unfold collect_data_loop at hcontra
    split at hcontra
    · rename_i hbad
      omega
    · cases rv with
      | none => exact absurd hcontra (by simp)
      | some u =>
        simp only at hcontra
        split at hcontra
        · rename_i e he
          simp only [Except.error.injEq] at hcontra
          have : e = BacktestError.freqParseError := by
            revert he
            unfold aggregate
            intro he
            exact aggGo_error_kind _ _ _ _ he
          rw [this] at hcontra
          cases hcontra
        · exact absurd hcontra (by simp)

/-- Witness for C10: a reversed range errors, an ordered one does not. -/
theorem c10_witness :
    collect_data_loop 0 (-1) wStrat wExec wDriver none =
      Except.error BacktestError.configurationError ∧
    collect_data_loop 0 5 wStrat wExec wDriver (some ()) ≠
      Except.error BacktestError.configurationError :=
  ⟨(c10_configuration_error 0 (-1) wStrat wExec wDriver none).1 (by decide),
   (c10_configuration_error 0 5 wStrat wExec wDriver (some ())).2
     (by decide)⟩

end QlibBacktest
